import Mathlib

/-!
Shallow embedding of `activitysim/abm/models/util/vectorize_tour_scheduling.py`
(the tour time-of-day scheduling core) and verification of the frozen claims
about it.

Modelling conventions
- A pandas DataFrame of tours becomes `List Tour`; the DataFrame index
  (`tour_id`) is carried as an explicit field.
- The alternatives table `alts` becomes `List Alt`; its index is positional
  (a RangeIndex `0..n-1`, as in the tdd alternatives table), so `alts.index`
  values coincide with positions and `alts.take`/`alts.loc` both become
  `List.get?`.  The pandas column `end` is a Lean keyword, hence the field
  name `end_`.
- The external Timetable is opaque: an availability predicate `avail`
  (queried by `tour_available`) plus a log `assigned` of the (person, tdd)
  pairs this core has told it to mark occupied via `assign`.
- The external choice evaluator `interaction_sample_simulate` is a function
  parameter `simulate`; the utility spec is an opaque type parameter.
- Python exceptions (failed `assert`, pandas `KeyError` / `IndexError` on a
  `.loc` with a missing label) become `Option`/`none`.
-/

/-- One row of the `tours` DataFrame: index value `tour_id`, plus the
`person_id`, `tour_num` and `tour_type` columns used by the scheduler
(tour types are encoded as naturals). -/
structure Tour where
  tour_id : Nat
  person_id : Nat
  tour_num : Nat
  tour_type : Nat
deriving DecidableEq, Repr

/-- One row of the `alts` DataFrame (positional index): the pandas columns
start, end, duration.  `end` is a Lean keyword, hence `end_`. -/
structure Alt where
  start : Nat
  end_ : Nat
  duration : Nat
deriving DecidableEq, Repr

/-- The external Timetable resource: an opaque availability predicate
(person id, tdd alternative id) plus the log of pairs committed so far via
`assign`. -/
structure TimeTable where
  avail : Nat → Nat → Bool
  assigned : List (Nat × Nat)

/-- Vectorized availability query `timetable.tour_available(person_ids, alt_ids)`:
parallel arrays in, boolean mask out, no mutation. -/
def TimeTable.tour_available (tt : TimeTable) (person_ids alt_ids : List Nat) : List Bool :=
  List.zipWith tt.avail person_ids alt_ids

/-- Commit `timetable.assign(person_ids, choices)`: the chosen (person, tdd)
pairs are appended to the occupancy log. -/
def TimeTable.assign (tt : TimeTable) (pairs : List (Nat × Nat)) : TimeTable :=
  { tt with assigned := tt.assigned ++ pairs }

/-- Lookup in a pandas Series with unique index (`series.loc[key]`), as an
association-list lookup; `none` models the `KeyError` on a missing label. -/
def alookup : List (Nat × Nat) → Nat → Option Nat
  | [], _ => none
  | kv :: rest, k => if kv.1 = k then some kv.2 else alookup rest k

/-- One row of the `previous_tour_by_tourid` frame returned by
`get_previous_tour_by_tourid`: indexed by the current tour id, with the
PREV_TOUR_COLUMNS `start`, `end` of the previous tour's alternative,
suffixed `_previous`. -/
structure PrevRow where
  tour_id : Nat
  start_previous : Nat
  end_previous : Nat
deriving DecidableEq, Repr

/-- Embedding of `get_previous_tour_by_tourid(current_tour_person_ids,
previous_tour_by_personid, alts)`.  The input Series of person ids (indexed
by tour id) is a list of (tour_id, person_id) pairs.  For each current tour
it performs the two chained pure `.loc` lookups of the source — the person's
entry in the previous-tour Series, then that alternative's `start`/`end`
columns in `alts` — and re-indexes the result by the current tour ids.  A
missing label in either lookup is a pandas `KeyError`, modelled as `none`.
The function is a pure lookup: it takes `previous_tour_by_personid` read-only
and returns a fresh frame. -/
def get_previous_tour_by_tourid
    (current_tour_person_ids : List (Nat × Nat))
    (previous_tour_by_personid : List (Nat × Nat))
    (alts : List Alt) : Option (List PrevRow) :=
  match current_tour_person_ids with
  | [] => some []
  | tp :: rest =>
    match alookup previous_tour_by_personid tp.2 with
    | none => none
    | some altIdx =>
      match alts.get? altIdx with
      | none => none
      | some a =>
        match get_previous_tour_by_tourid rest previous_tour_by_personid alts with
        | none => none
        | some rows => some (⟨tp.1, a.start, a.end_⟩ :: rows)

/-- One row of the full cross-product frame built inside
`tdd_interaction_dataset` before the `person_id` column is dropped:
index `tour_id`, columns start, end, duration, person_id and the choice
column `tdd` (the alternative's own index). -/
structure CrossRow where
  tour_id : Nat
  person_id : Nat
  start : Nat
  end_ : Nat
  duration : Nat
  tdd : Nat
deriving DecidableEq, Repr

/-- One row of the `alt_tdd` frame returned by `tdd_interaction_dataset`
(the `person_id` column has been dropped), and also one row of the final
expanded result of `vectorize_tour_scheduling`: index `tour_id`, columns
start, end, duration, tdd. -/
structure TddRow where
  tour_id : Nat
  start : Nat
  end_ : Nat
  duration : Nat
  tdd : Nat
deriving DecidableEq, Repr

/-- Drop the `person_id` column of a cross-product row
(`del alt_tdd['person_id']`). -/
def dropPerson (r : CrossRow) : TddRow :=
  ⟨r.tour_id, r.start, r.end_, r.duration, r.tdd⟩

/-- The full cross-product `tours × alts` built by the `np.tile` / `np.repeat`
block of `tdd_interaction_dataset`: tour-major order, each row tagged with the
owning tour's index, the owning person's id, the alternative's columns
(`alts.take(alts_ids)`), and the alternative's own positional index under the
choice column `tdd`. -/
def tddCrossProduct (tours : List Tour) (alts : List Alt) : List CrossRow :=
  tours.flatMap fun t => alts.enum.map fun ia =>
    { tour_id := t.tour_id, person_id := t.person_id,
      start := ia.2.start, end_ := ia.2.end_, duration := ia.2.duration, tdd := ia.1 }

/-- Embedding of `tdd_interaction_dataset(tours, alts, timetable,
choice_column)` (the choice column name is the literal `tdd` the caller
passes).  Builds the full cross-product, queries the Timetable once with the
parallel person-id / alternative-id arrays for the availability mask, asserts
`available.any()` (an AssertionError, i.e. `none`, when the whole mask is
false — note this is a batch-level check, not per-tour), slices the frame by
the mask and drops the `person_id` column. -/
def tdd_interaction_dataset (tours : List Tour) (alts : List Alt)
    (timetable : TimeTable) : Option (List TddRow) :=
  let alt_tdd := tddCrossProduct tours alts
  let available :=
    timetable.tour_available (alt_tdd.map (·.person_id)) (alt_tdd.map (·.tdd))
  if available.any (fun b => b) then
    some ((((alt_tdd.zip available).filter (fun ra => ra.2)).map (fun ra => ra.1)).map dropPerson)
  else
    none

/-- A tour row after `pd.merge(tours, persons_merged, left_on='person_id',
right_index=True)` (an inner join, so a tour whose person is missing from the
person table is silently dropped) and after `tours.join(get_previous_tour_by_tourid(...))`
has attached the two previous-tour columns.  The person attribute columns
only feed the opaque evaluator and are not modelled beyond the person id
already on the tour. -/
structure ETour extends Tour where
  start_previous : Nat
  end_previous : Nat
deriving DecidableEq, Repr

/-- The inner merge of the tours batch with the person table (modelled by its
index, the list of person ids): tours whose person id is absent are dropped,
left order preserved. -/
def mergedTours (tours : List Tour) (persons_merged : List Nat) : List Tour :=
  tours.filter fun t => persons_merged.any fun q => q = t.person_id

/-- Attach the previous-tour columns row-by-row (`tours.join(...)`: both
frames carry the same tour-id index in the same order). -/
def joinPrev (mtours : List Tour) (prevRows : List PrevRow) : List ETour :=
  List.zipWith
    (fun t pr => { toTour := t, start_previous := pr.start_previous,
                   end_previous := pr.end_previous })
    mtours prevRows

/-- Embedding of `previous_tour_by_personid.loc[tours.person_id] = choices.values`:
each entry of the Series whose person id was scheduled in this pass is
overwritten with that person's newly chosen alternative index; all other
entries, and the index itself, are untouched. -/
def updatePrev (s pairs : List (Nat × Nat)) : List (Nat × Nat) :=
  s.map fun kv => (kv.1, (alookup pairs kv.1).getD kv.2)

/-- The body of `schedule_tours` after its entry assertion: merge persons
into tours, join the previous-tour columns, build the availability-filtered
interaction dataset, call the (external, parameter) evaluator
`interaction_sample_simulate`, commit the choices to the previous-tour Series
and the Timetable, and return the per-tour choices Series.  The evaluator
returns one chosen alternative index per chooser row, positionally; a length
mismatch with the chooser frame (an evaluator contract violation, which the
positional `.loc` assignment would surface as a pandas error) is `none`. -/
def schedule_tours_core {σ : Type}
    (simulate : List ETour → List TddRow → σ → List Nat)
    (tours : List Tour) (persons_merged : List Nat)
    (alts : List Alt) (spec : σ)
    (timetable : TimeTable) (previous_tour_by_personid : List (Nat × Nat)) :
    Option (List (Nat × Nat) × List (Nat × Nat) × TimeTable) :=
  let mtours := mergedTours tours persons_merged
  match get_previous_tour_by_tourid (mtours.map fun t => (t.tour_id, t.person_id))
      previous_tour_by_personid alts with
  | none => none
  | some prevRows =>
    match tdd_interaction_dataset mtours alts timetable with
    | none => none
    | some alt_tdd =>
      let vals := simulate (joinPrev mtours prevRows) alt_tdd spec
      if vals.length = mtours.length then
        some (((mtours.map (·.tour_id)).zip vals),
              updatePrev previous_tour_by_personid ((mtours.map (·.person_id)).zip vals),
              timetable.assign ((mtours.map (·.person_id)).zip vals))
      else
        none

/-- Embedding of `schedule_tours(tours, persons_merged, alts, spec, constants,
timetable, previous_tour_by_personid, chunk_size, tour_trace_label)`.  The
entry assertion `len(tours.index) == len(np.unique(tours.person_id.values))`
(no more than one tour per person in a batch) aborts — `none` — before any
merge, choice or commit; otherwise the pass body `schedule_tours_core` runs.
Constants, chunk size and trace labels only feed the opaque evaluator,
logging and chunking; they are folded into the evaluator parameter. -/
def schedule_tours {σ : Type}
    (simulate : List ETour → List TddRow → σ → List Nat)
    (tours : List Tour) (persons_merged : List Nat)
    (alts : List Alt) (spec : σ)
    (timetable : TimeTable) (previous_tour_by_personid : List (Nat × Nat)) :
    Option (List (Nat × Nat) × List (Nat × Nat) × TimeTable) :=
  if tours.length = ((tours.map (·.person_id)).dedup).length then
    schedule_tours_core simulate tours persons_merged alts spec
      timetable previous_tour_by_personid
  else
    none

/-- The `spec` argument of `vectorize_tour_scheduling`: either a single
utility spec, or a dict of specs keyed by tour type (iterated in insertion
order, as a Python dict is). -/
inductive SpecArg (σ : Type) where
  | single (spec : σ)
  | dict (specs : List (Nat × σ))

/-- The ascending group keys produced by `tours.groupby('tour_num')`
(pandas groupby sorts the keys). -/
def groupKeys (tours : List Tour) : List Nat :=
  ((tours.map (·.tour_num)).dedup).insertionSort (· ≤ ·)

/-- One groupby batch: the tours with the given sequence number, in input
order. -/
def nthTours (tours : List Tour) (k : Nat) : List Tour :=
  tours.filter fun t => t.tour_num = k

/-- The initial previous-tour Series
`pd.Series(alts.index[0], index=tours.person_id.unique())`: every distinct
person of the input tours mapped to the first alternative's index, which is
`0` under the positional alternatives index.  (The entry-order of the Series
is immaterial to lookups; `vectorize_tour_scheduling` guards the empty-`alts`
IndexError of `alts.index[0]` before building it.) -/
def initialPrev (tours : List Tour) : List (Nat × Nat) :=
  ((tours.map (·.person_id)).dedup).map fun p => (p, 0)

/-- The dict-spec inner loop of `vectorize_tour_scheduling`: one
`schedule_tours` pass per dict key, in dict order, on the group filtered to
that tour type, threading the previous-tour Series and Timetable and
accumulating the choices of each pass in order. -/
def runDict {σ : Type}
    (simulate : List ETour → List TddRow → σ → List Nat)
    (persons_merged : List Nat) (alts : List Alt) :
    List (Nat × σ) → List Tour → List (Nat × Nat) × TimeTable →
    Option (List (Nat × Nat) × (List (Nat × Nat) × TimeTable))
  | [], _, st => some ([], st)
  | ts :: rest, nth, st =>
    match schedule_tours simulate (nth.filter fun t => t.tour_type = ts.1)
        persons_merged alts ts.2 st.2 st.1 with
    | none => none
    | some (ch, prev2, tt2) =>
      match runDict simulate persons_merged alts rest nth (prev2, tt2) with
      | none => none
      | some (chRest, st') => some (ch ++ chRest, st')

/-- One sequence-number group of the orchestrator loop: a single pass on the
whole group when `spec` is a single spec, or one pass per dict key when it is
a dict. -/
def runGroup {σ : Type}
    (simulate : List ETour → List TddRow → σ → List Nat)
    (persons_merged : List Nat) (alts : List Alt) (spec : SpecArg σ)
    (nth : List Tour) (st : List (Nat × Nat) × TimeTable) :
    Option (List (Nat × Nat) × (List (Nat × Nat) × TimeTable)) :=
  match spec with
  | SpecArg.single s =>
    match schedule_tours simulate nth persons_merged alts s st.2 st.1 with
    | none => none
    | some (ch, prev2, tt2) => some (ch, prev2, tt2)
  | SpecArg.dict specs => runDict simulate persons_merged alts specs nth st

/-- The `for tour_num, nth_tours in tours.groupby('tour_num')` loop: the
groups are processed strictly in the order of the (ascending) key list,
threading the previous-tour Series and Timetable from one group to the next
and concatenating the choices in processing order. -/
def runGroups {σ : Type}
    (simulate : List ETour → List TddRow → σ → List Nat)
    (tours : List Tour) (persons_merged : List Nat) (alts : List Alt)
    (spec : SpecArg σ) :
    List Nat → List (Nat × Nat) × TimeTable →
    Option (List (Nat × Nat) × (List (Nat × Nat) × TimeTable))
  | [], st => some ([], st)
  | k :: ks, st =>
    match runGroup simulate persons_merged alts spec (nthTours tours k) st with
    | none => none
    | some (ch, st') =>
      match runGroups simulate tours persons_merged alts spec ks st' with
      | none => none
      | some (chRest, stF) => some (ch ++ chRest, stF)

/-- The orchestration part of `vectorize_tour_scheduling` up to and including
`choices = pd.concat(choice_list)`: the entry assertion that `tours` is
non-empty, the `alts.index[0]` access of the previous-tour-Series
initialization (IndexError, i.e. `none`, on an empty alternatives table), and
the group loop. -/
def scheduling_choices {σ : Type}
    (simulate : List ETour → List TddRow → σ → List Nat)
    (tours : List Tour) (persons_merged : List Nat) (alts : List Alt)
    (spec : SpecArg σ) (timetable : TimeTable) : Option (List (Nat × Nat)) :=
  if tours.length = 0 then
    none
  else if alts.isEmpty then
    none
  else
    match runGroups simulate tours persons_merged alts spec (groupKeys tours)
        (initialPrev tours, timetable) with
    | none => none
    | some (choices, _) => some choices

/-- The final expansion `tdd = alts.loc[choices]; tdd.index = choices.index;
tdd['tdd'] = choices`: each chosen alternative index is looked up verbatim in
the alternatives table, re-indexed by the tour id, with the chosen index
itself kept in the `tdd` column. -/
def expandChoices (alts : List Alt) : List (Nat × Nat) → Option (List TddRow)
  | [] => some []
  | c :: rest =>
    match alts.get? c.2 with
    | none => none
    | some a =>
      match expandChoices alts rest with
      | none => none
      | some rows => some (⟨c.1, a.start, a.end_, a.duration, c.2⟩ :: rows)

/-- Embedding of `vectorize_tour_scheduling(tours, persons_merged, alts, spec,
constants, chunk_size, trace_label)`: the group-loop orchestration followed
by the expansion of the concatenated choices.  (`timetable.replace_table()`
finalizes the external resource and is not otherwise observable here.)  The
column-presence assertions on `tour_num` / `tour_type` hold structurally in
the embedding. -/
def vectorize_tour_scheduling {σ : Type}
    (simulate : List ETour → List TddRow → σ → List Nat)
    (tours : List Tour) (persons_merged : List Nat) (alts : List Alt)
    (spec : SpecArg σ) (timetable : TimeTable) : Option (List TddRow) :=
  match scheduling_choices simulate tours persons_merged alts spec timetable with
  | none => none
  | some choices => expandChoices alts choices

/-- Well-formedness of the `spec` argument relative to a tour population:
a single spec covers everything; a dict spec must have pairwise-distinct keys
(a Python dict cannot hold a key twice) and a key for every tour type that
occurs, since the orchestrator only schedules the sub-batches selected by its
keys. -/
def specOk {σ : Type} (spec : SpecArg σ) (tours : List Tour) : Prop :=
  match spec with
  | SpecArg.single _ => True
  | SpecArg.dict specs =>
    (specs.map Prod.fst).Nodup ∧ ∀ t ∈ tours, t.tour_type ∈ specs.map Prod.fst

/-! ### General helper lemmas about the embedding -/

lemma mask_filter_map {α : Type} (l : List α) (f : α → Bool) :
    (((l.zip (l.map f)).filter (fun ra => ra.2)).map (fun ra => ra.1)) = l.filter f := by
  induction l with
  | nil => rfl
  | cons a l ih =>
    cases hfa : f a <;>
      simp [List.filter_cons, hfa, ih]

lemma any_map_id {α : Type} (l : List α) (f : α → Bool) :
    ((l.map f).any fun b => b) = l.any f := by
  induction l with
  | nil => rfl
  | cons a l ih => simp [ih]

lemma length_tddCrossProduct (tours : List Tour) (alts : List Alt) :
    (tddCrossProduct tours alts).length = tours.length * alts.length := by
  induction tours with
  | nil => simp [tddCrossProduct]
  | cons t ts ih =>
    simp only [tddCrossProduct, List.flatMap_cons, List.length_append, List.length_map,
      List.enum_length, List.length_cons] at ih ⊢
    rw [ih, Nat.succ_mul]
    omega

lemma tdd_interaction_dataset_eq (tours : List Tour) (alts : List Alt) (tt : TimeTable) :
    tdd_interaction_dataset tours alts tt =
      if (tddCrossProduct tours alts).any (fun r => tt.avail r.person_id r.tdd) then
        some (((tddCrossProduct tours alts).filter
          (fun r => tt.avail r.person_id r.tdd)).map dropPerson)
      else none := by
  have hz : List.zipWith tt.avail ((tddCrossProduct tours alts).map (·.person_id))
      ((tddCrossProduct tours alts).map (·.tdd))
      = (tddCrossProduct tours alts).map (fun r => tt.avail r.person_id r.tdd) := by
    rw [List.zipWith_map, List.zipWith_same]
  simp only [tdd_interaction_dataset, TimeTable.tour_available, hz, any_map_id,
    mask_filter_map]

lemma mem_tddCrossProduct {cr : CrossRow} {tours : List Tour} {alts : List Alt} :
    cr ∈ tddCrossProduct tours alts ↔
      ∃ t ∈ tours, ∃ ia ∈ alts.enum,
        cr = { tour_id := t.tour_id, person_id := t.person_id,
               start := ia.2.start, end_ := ia.2.end_, duration := ia.2.duration,
               tdd := ia.1 } := by
  simp only [tddCrossProduct, List.mem_flatMap, List.mem_map]
  constructor
  · rintro ⟨t, ht, ia, hia, rfl⟩
    exact ⟨t, ht, ia, hia, rfl⟩
  · rintro ⟨t, ht, ia, hia, rfl⟩
    exact ⟨t, ht, ia, hia, rfl⟩

lemma length_eq_dedup_length_iff {l : List Nat} :
    l.length = l.dedup.length ↔ l.Nodup := by
  constructor
  · intro h
    exact List.dedup_eq_self.mp ((List.dedup_sublist l).eq_of_length h.symm)
  · intro h
    rw [List.dedup_eq_self.mpr h]

lemma alookup_map_zero {p : Nat} {ks : List Nat} (h : p ∈ ks) :
    alookup (ks.map fun q => (q, 0)) p = some 0 := by
  induction ks with
  | nil => cases h
  | cons k ks ih =>
    by_cases hk : k = p
    · simp [alookup, hk]
    · rcases List.mem_cons.mp h with h' | h'
      · exact absurd h'.symm hk
      · simp [alookup, hk, ih h']

lemma get_previous_eq_some {cur prev : List (Nat × Nat)} {alts : List Alt}
    {rows : List PrevRow}
    (h : get_previous_tour_by_tourid cur prev alts = some rows) :
    rows.length = cur.length ∧
    ∀ i (hi : i < cur.length), ∃ altIdx a,
      alookup prev (cur.get ⟨i, hi⟩).2 = some altIdx ∧
      alts.get? altIdx = some a ∧
      rows.get? i = some ⟨(cur.get ⟨i, hi⟩).1, a.start, a.end_⟩ := by
  induction cur generalizing rows with
  | nil =>
    simp only [get_previous_tour_by_tourid, Option.some.injEq] at h
    subst h
    exact ⟨rfl, fun i hi => absurd hi (by simp)⟩
  | cons tp rest ih =>
    simp only [get_previous_tour_by_tourid] at h
    rcases h1 : alookup prev tp.2 with _ | altIdx
    · simp only [h1] at h
      exact Option.noConfusion h
    simp only [h1] at h
    rcases h2 : alts.get? altIdx with _ | a
    · simp only [h2] at h
      exact Option.noConfusion h
    simp only [h2] at h
    rcases h3 : get_previous_tour_by_tourid rest prev alts with _ | rows'
    · simp only [h3] at h
      exact Option.noConfusion h
    simp only [h3, Option.some.injEq] at h
    subst h
    obtain ⟨hlen, hpt⟩ := ih h3
    refine ⟨by simpa using hlen, fun i hi => ?_⟩
    match i with
    | 0 => exact ⟨altIdx, a, h1, h2, rfl⟩
    | i + 1 => exact hpt i (Nat.lt_of_succ_lt_succ hi)

lemma get_previous_ids {cur prev : List (Nat × Nat)} {alts : List Alt}
    {rows : List PrevRow}
    (h : get_previous_tour_by_tourid cur prev alts = some rows) :
    rows.map (·.tour_id) = cur.map Prod.fst := by
  induction cur generalizing rows with
  | nil =>
    simp only [get_previous_tour_by_tourid, Option.some.injEq] at h
    subst h; rfl
  | cons tp rest ih =>
    simp only [get_previous_tour_by_tourid] at h
    rcases h1 : alookup prev tp.2 with _ | altIdx
    · simp only [h1] at h
      exact Option.noConfusion h
    simp only [h1] at h
    rcases h2 : alts.get? altIdx with _ | a
    · simp only [h2] at h
      exact Option.noConfusion h
    simp only [h2] at h
    rcases h3 : get_previous_tour_by_tourid rest prev alts with _ | rows'
    · simp only [h3] at h
      exact Option.noConfusion h
    simp only [h3, Option.some.injEq] at h
    subst h
    simp [ih h3]

lemma get_previous_total {cur prev : List (Nat × Nat)} {alts : List Alt}
    (h : ∀ tp ∈ cur, ∃ altIdx a, alookup prev tp.2 = some altIdx ∧
      alts.get? altIdx = some a) :
    ∃ rows, get_previous_tour_by_tourid cur prev alts = some rows := by
  induction cur with
  | nil => exact ⟨[], rfl⟩
  | cons tp rest ih =>
    obtain ⟨altIdx, a, h1, h2⟩ := h tp (by simp)
    obtain ⟨rows, hrows⟩ := ih fun tp' htp' => h tp' (by simp [htp'])
    refine ⟨⟨tp.1, a.start, a.end_⟩ :: rows, ?_⟩
    simp only [get_previous_tour_by_tourid, h1, h2, hrows]

/-! ### Claim C1 -/

/-- Claim C1 is false as stated: at a concrete input (tours 1 and 2 of
persons 1 and 2, one alternative, a Timetable that grants availability to
person 1 only), tour 2 is in the batch and has zero available alternatives
after Timetable filtering, yet `tdd_interaction_dataset` returns a dataset
(its `assert available.any()` is batch-level, not per-tour) — and the
returned dataset has no row for tour 2, so it is not the case that at least
one interaction row remains per tour. -/
theorem C1_counterexample :
    2 ∈ ([⟨1, 1, 1, 0⟩, ⟨2, 2, 1, 0⟩] : List Tour).map Tour.tour_id ∧
    tdd_interaction_dataset [⟨1, 1, 1, 0⟩, ⟨2, 2, 1, 0⟩] [⟨5, 9, 4⟩]
      ⟨fun p _ => p = 1, []⟩ = some [⟨1, 5, 9, 4, 0⟩] ∧
    ∀ r ∈ [(⟨1, 5, 9, 4, 0⟩ : TddRow)], r.tour_id ≠ 2 := by
  decide

/-- Claim C1 (amended): the interaction-dataset builder aborts exactly when
no (tour, alternative) pair of the whole batch cross-product is available;
when it returns, at least one interaction row remains in the whole batch —
but not necessarily one per tour (a tour all of whose alternatives are
unavailable is silently left without rows while other tours keep theirs). -/
theorem C1_batch_level_infeasibility (tours : List Tour) (alts : List Alt)
    (tt : TimeTable) :
    (tdd_interaction_dataset tours alts tt = none ↔
      ∀ r ∈ tddCrossProduct tours alts, tt.avail r.person_id r.tdd = false) ∧
    (∀ rows, tdd_interaction_dataset tours alts tt = some rows → rows ≠ []) := by
  rw [tdd_interaction_dataset_eq]
  by_cases hany : (tddCrossProduct tours alts).any fun r => tt.avail r.person_id r.tdd
  · rw [if_pos hany]
    obtain ⟨r0, hr0, hav⟩ := List.any_eq_true.mp hany
    constructor
    · constructor
      · intro hsome
        exact Option.noConfusion hsome
      · intro hall
        exact absurd (hall r0 hr0) (by simp [hav])
    · intro rows hrows hnil
      injection hrows with hx
      have hr0f : r0 ∈ (tddCrossProduct tours alts).filter
          (fun r => tt.avail r.person_id r.tdd) :=
        List.mem_filter.mpr ⟨hr0, hav⟩
      have hmem : dropPerson r0 ∈ rows := by
        rw [← hx]
        exact List.mem_map_of_mem dropPerson hr0f
      rw [hnil] at hmem
      cases hmem
  · rw [if_neg hany]
    have hall : ∀ r ∈ tddCrossProduct tours alts, tt.avail r.person_id r.tdd = false := by
      intro r hr
      cases hb : tt.avail r.person_id r.tdd
      · rfl
      · exact absurd (List.any_eq_true.mpr ⟨r, hr, hb⟩) hany
    exact ⟨⟨fun _ => hall, fun _ => rfl⟩,
      fun rows hrows => Option.noConfusion hrows⟩

/-- Witness for C1 (amended) at a concrete input: the builder returns a
non-empty dataset when some pair is available. -/
theorem C1_batch_level_infeasibility_witness :
    tdd_interaction_dataset [⟨1, 1, 1, 0⟩] [⟨0, 4, 4⟩] ⟨fun _ _ => true, []⟩
      = some [⟨1, 0, 4, 4, 0⟩] ∧
    ([(⟨1, 0, 4, 4, 0⟩ : TddRow)]) ≠ [] :=
  ⟨by decide,
    (C1_batch_level_infeasibility [⟨1, 1, 1, 0⟩] [⟨0, 4, 4⟩] ⟨fun _ _ => true, []⟩).2
      [⟨1, 0, 4, 4, 0⟩] (by decide)⟩

/-! ### Claim C3 -/

/-- Claim C3: `tdd_interaction_dataset` forms the full cross-product of size
`tours.length * alts.length`, each row indexed by the owning tour's identity
and carrying the alternative's index in the `tdd` column, and returns exactly
the cross-product rows whose Timetable availability mask is true, with the
person-id column dropped; hence every (tour, alternative) pair of the
returned dataset — so any choice drawn from it — was marked available for
the owning person at filtering time. -/
theorem C3_cross_product_filter (tours : List Tour) (alts : List Alt)
    (tt : TimeTable) (rows : List TddRow)
    (h : tdd_interaction_dataset tours alts tt = some rows) :
    (tddCrossProduct tours alts).length = tours.length * alts.length ∧
    rows = ((tddCrossProduct tours alts).filter
      (fun r => tt.avail r.person_id r.tdd)).map dropPerson ∧
    (∀ r ∈ rows, ∃ cr ∈ tddCrossProduct tours alts,
      dropPerson cr = r ∧ tt.avail cr.person_id cr.tdd = true) ∧
    (∀ tid c, (∃ r ∈ rows, r.tour_id = tid ∧ r.tdd = c) →
      ∃ t ∈ tours, t.tour_id = tid ∧ tt.avail t.person_id c = true) := by
  rw [tdd_interaction_dataset_eq] at h
  by_cases hany : (tddCrossProduct tours alts).any fun r => tt.avail r.person_id r.tdd
  · rw [if_pos hany] at h
    injection h with hx
    subst hx
    refine ⟨length_tddCrossProduct tours alts, rfl, ?_, ?_⟩
    · intro r hr
      obtain ⟨cr, hcr, rfl⟩ := List.mem_map.mp hr
      obtain ⟨hmem, hav⟩ := List.mem_filter.mp hcr
      exact ⟨cr, hmem, rfl, hav⟩
    · rintro tid c ⟨r, hr, h1, h2⟩
      obtain ⟨cr, hcr, rfl⟩ := List.mem_map.mp hr
      obtain ⟨hmem, hav⟩ := List.mem_filter.mp hcr
      obtain ⟨t, ht, ia, hia, rfl⟩ := mem_tddCrossProduct.mp hmem
      subst h1
      subst h2
      exact ⟨t, ht, rfl, hav⟩
  · rw [if_neg hany] at h
    exact Option.noConfusion h

/-- Witness for C3 at a concrete input. -/
theorem C3_cross_product_filter_witness :
    (tddCrossProduct [⟨1, 1, 1, 0⟩] [⟨0, 4, 4⟩]).length = 1 * 1 :=
  (C3_cross_product_filter [⟨1, 1, 1, 0⟩] [⟨0, 4, 4⟩] ⟨fun _ _ => true, []⟩
    [⟨1, 0, 4, 4, 0⟩] (by decide)).1

/-! ### Claim C5 -/

/-- Claim C5: the previous-tour join attaches exactly the columns
`start_previous` / `end_previous` (the fields of `PrevRow`), whose values are
the `start` / `end` attributes of the alternatives table at the alternative
index stored in the Previous-Tour State for the tour's owning person, indexed
by the current tours' identities.  The join is a pure function of the state
(the embedding of `get_previous_tour_by_tourid` takes it read-only), so it
never mutates Previous-Tour State. -/
theorem C5_previous_tour_join (cur prev : List (Nat × Nat)) (alts : List Alt)
    (rows : List PrevRow)
    (h : get_previous_tour_by_tourid cur prev alts = some rows) :
    rows.map (·.tour_id) = cur.map Prod.fst ∧
    ∀ i (hi : i < cur.length), ∃ altIdx a,
      alookup prev (cur.get ⟨i, hi⟩).2 = some altIdx ∧
      alts.get? altIdx = some a ∧
      rows.get? i = some ⟨(cur.get ⟨i, hi⟩).1, a.start, a.end_⟩ :=
  ⟨get_previous_ids h, (get_previous_eq_some h).2⟩

/-- Witness for C5 at a concrete input. -/
theorem C5_previous_tour_join_witness :
    ([(⟨10, 5, 9⟩ : PrevRow)]).map (·.tour_id) =
      ([((10 : Nat), (3 : Nat))]).map Prod.fst :=
  (C5_previous_tour_join [(10, 3)] [(3, 0)] [⟨5, 9, 4⟩] [⟨10, 5, 9⟩] (by decide)).1

/-! ### Claim C7 -/

/-- Claim C7: before any pass runs, the Previous-Tour State maps every
distinct person id of the input tours (and no one else) to the index of the
first alternative (index 0 under the positional alternatives index), and any
previous-tour join over those persons succeeds on it. -/
theorem C7_initial_previous_state (tours : List Tour) (alts : List Alt)
    (h : alts ≠ []) :
    (initialPrev tours).map Prod.fst = (tours.map (·.person_id)).dedup ∧
    (∀ p, p ∈ tours.map (·.person_id) → alookup (initialPrev tours) p = some 0) ∧
    (∃ a0, alts.head? = some a0 ∧ alts.get? 0 = some a0) ∧
    (∀ cur : List (Nat × Nat), (∀ tp ∈ cur, tp.2 ∈ tours.map (·.person_id)) →
      ∃ rows, get_previous_tour_by_tourid cur (initialPrev tours) alts = some rows) := by
  obtain ⟨a0, alts', rfl⟩ : ∃ a0 alts', alts = a0 :: alts' := by
    cases alts with
    | nil => exact absurd rfl h
    | cons a as => exact ⟨a, as, rfl⟩
  refine ⟨?_, ?_, ⟨a0, rfl, rfl⟩, ?_⟩
  · simp [initialPrev, List.map_map, Function.comp_def]
  · intro p hp
    simpa [initialPrev] using alookup_map_zero (List.mem_dedup.mpr hp)
  · intro cur hcur
    apply get_previous_total
    intro tp htp
    exact ⟨0, a0,
      by simpa [initialPrev] using alookup_map_zero (List.mem_dedup.mpr (hcur tp htp)),
      rfl⟩

/-- Witness for C7 at a concrete input. -/
theorem C7_initial_previous_state_witness :
    alookup (initialPrev [⟨1, 7, 1, 0⟩]) 7 = some 0 :=
  (C7_initial_previous_state [⟨1, 7, 1, 0⟩] [⟨0, 4, 4⟩] (by decide)).2.1 7 (by decide)

/-! ### Claim C8 -/

/-- Claim C8: the entry assertion of `schedule_tours`
(`len(tours.index) == len(np.unique(tours.person_id.values))`) holds exactly
when the batch has at most one tour per person; when it holds the pass body
runs, and when two tours share a person the pass aborts before any merge,
choice or commit. -/
theorem C8_one_tour_per_person_assertion {σ : Type}
    (simulate : List ETour → List TddRow → σ → List Nat)
    (tours : List Tour) (persons_merged : List Nat) (alts : List Alt) (s : σ)
    (tt : TimeTable) (prev : List (Nat × Nat)) :
    ((tours.map (·.person_id)).Nodup →
      schedule_tours simulate tours persons_merged alts s tt prev =
        schedule_tours_core simulate tours persons_merged alts s tt prev) ∧
    (¬ (tours.map (·.person_id)).Nodup →
      schedule_tours simulate tours persons_merged alts s tt prev = none) := by
  unfold schedule_tours
  constructor
  · intro hnd
    rw [if_pos]
    have hl : (tours.map (·.person_id)).length
        = ((tours.map (·.person_id)).dedup).length :=
      length_eq_dedup_length_iff.mpr hnd
    simpa using hl
  · intro hnd
    rw [if_neg]
    intro hc
    exact hnd (length_eq_dedup_length_iff.mp (by simpa using hc))

/-- Witness for C8: a batch with two tours of the same person aborts. -/
theorem C8_one_tour_per_person_assertion_witness :
    schedule_tours (fun ets _ _ => ets.map fun _ => 0 :
        List ETour → List TddRow → Unit → List Nat)
      [⟨1, 3, 1, 0⟩, ⟨2, 3, 1, 0⟩] [3] [⟨0, 4, 4⟩] () ⟨fun _ _ => true, []⟩ [(3, 0)]
      = none :=
  (C8_one_tour_per_person_assertion _ _ _ _ _ _ _).2 (by decide)

/-! ### State-commit lemmas for the scheduling pass -/

lemma alookup_updatePrev (s pairs : List (Nat × Nat)) (p : Nat) :
    alookup (updatePrev s pairs) p
      = (alookup s p).map fun w => (alookup pairs p).getD w := by
  induction s with
  | nil => rfl
  | cons kv s ih =>
    by_cases hk : kv.1 = p
    · subst hk
      simp [updatePrev, alookup]
    · simpa [updatePrev, alookup, hk] using ih

lemma updatePrev_keys (s pairs : List (Nat × Nat)) :
    (updatePrev s pairs).map Prod.fst = s.map Prod.fst := by
  simp [updatePrev, List.map_map, Function.comp_def]

lemma alookup_eq_none {pairs : List (Nat × Nat)} {q : Nat}
    (h : q ∉ pairs.map Prod.fst) : alookup pairs q = none := by
  induction pairs with
  | nil => rfl
  | cons kv rest ih =>
    simp only [List.map_cons, List.mem_cons] at h
    push_neg at h
    have hk : ¬ kv.1 = q := fun hq => h.1 hq.symm
    simp [alookup, hk, ih h.2]

lemma alookup_isSome_of_mem {s : List (Nat × Nat)} {p : Nat}
    (h : p ∈ s.map Prod.fst) : ∃ w, alookup s p = some w := by
  induction s with
  | nil => cases h
  | cons kv rest ih =>
    by_cases hk : kv.1 = p
    · exact ⟨kv.2, by simp [alookup, hk]⟩
    · rcases List.mem_cons.mp h with h' | h'
      · exact absurd h'.symm hk
      · obtain ⟨w, hw⟩ := ih h'
        exact ⟨w, by simp [alookup, hk, hw]⟩

lemma alookup_zip_get {ks : List Nat} (vs : List Nat) (hnd : ks.Nodup)
    (i : Nat) (hi : i < ks.length) (hlen : vs.length = ks.length) :
    alookup (ks.zip vs) ks[i] = vs[i]? := by
  induction ks generalizing vs i with
  | nil => cases hi
  | cons k ks ih =>
    cases vs with
    | nil => simp at hlen
    | cons v vs =>
      match i with
      | 0 => simp [alookup]
      | i + 1 =>
        have hi' : i < ks.length := Nat.lt_of_succ_lt_succ hi
        have hk : ¬ k = ks[i] := by
          intro hke
          exact (List.nodup_cons.mp hnd).1 (hke ▸ List.getElem_mem hi')
        simpa [alookup, hk] using
          ih vs (List.nodup_cons.mp hnd).2 i hi' (by simpa using hlen)

/-- Inversion of a successful `schedule_tours` call: the entry assertion
held, the previous-tour join and the interaction dataset both succeeded, the
evaluator returned one value per (merged) chooser, and the outputs are
exactly the choices Series, the overwritten previous-tour Series and the
Timetable with the chosen pairs committed. -/
lemma schedule_tours_inv {σ : Type}
    {simulate : List ETour → List TddRow → σ → List Nat}
    {tours : List Tour} {persons_merged : List Nat} {alts : List Alt} {s : σ}
    {tt : TimeTable} {prev : List (Nat × Nat)}
    {ch prev' : List (Nat × Nat)} {tt' : TimeTable}
    (h : schedule_tours simulate tours persons_merged alts s tt prev
      = some (ch, prev', tt')) :
    (tours.map (·.person_id)).Nodup ∧
    ∃ prevRows alt_tdd vals,
      get_previous_tour_by_tourid
        ((mergedTours tours persons_merged).map fun t => (t.tour_id, t.person_id))
        prev alts = some prevRows ∧
      tdd_interaction_dataset (mergedTours tours persons_merged) alts tt
        = some alt_tdd ∧
      vals = simulate (joinPrev (mergedTours tours persons_merged) prevRows) alt_tdd s ∧
      vals.length = (mergedTours tours persons_merged).length ∧
      ch = ((mergedTours tours persons_merged).map (·.tour_id)).zip vals ∧
      prev' = updatePrev prev
        (((mergedTours tours persons_merged).map (·.person_id)).zip vals) ∧
      tt' = tt.assign (((mergedTours tours persons_merged).map (·.person_id)).zip vals) := by
  unfold schedule_tours at h
  split at h
  case isFalse => exact Option.noConfusion h
  case isTrue hcond =>
    refine ⟨length_eq_dedup_length_iff.mp (by simpa using hcond), ?_⟩
    unfold schedule_tours_core at h
    rcases h1 : get_previous_tour_by_tourid
        ((mergedTours tours persons_merged).map fun t => (t.tour_id, t.person_id))
        prev alts with _ | prevRows
    · simp only [h1] at h
      exact Option.noConfusion h
    simp only [h1] at h
    rcases h2 : tdd_interaction_dataset (mergedTours tours persons_merged) alts tt
        with _ | alt_tdd
    · simp only [h2] at h
      exact Option.noConfusion h
    simp only [h2] at h
    split at h
    case isFalse => exact Option.noConfusion h
    case isTrue hlen =>
      injection h with h'
      injection h' with ha h''
      injection h'' with hb hc
      exact ⟨prevRows, alt_tdd, _, h1, by first | exact h2 | rfl, rfl, hlen,
        ha.symm, hb.symm, hc.symm⟩

/-! ### Claim C6 -/

/-- Claim C6: when a scheduling pass commits, the previous-tour Series entry
of every person scheduled in the pass becomes that person's newly chosen
alternative index, entries of persons not scheduled are unchanged, the
Series' key set is unchanged (in particular it never shrinks), and the
Timetable is told to mark exactly the chosen (person, alternative) pairs as
occupied (they are appended to its occupancy log; its availability predicate
itself is external state and untouched by this core). -/
theorem C6_commit_effects {σ : Type}
    (simulate : List ETour → List TddRow → σ → List Nat)
    (tours : List Tour) (persons_merged : List Nat) (alts : List Alt) (s : σ)
    (tt : TimeTable) (prev : List (Nat × Nat))
    (ch prev' : List (Nat × Nat)) (tt' : TimeTable)
    (h : schedule_tours simulate tours persons_merged alts s tt prev
      = some (ch, prev', tt')) :
    ∃ vals : List Nat,
      vals.length = (mergedTours tours persons_merged).length ∧
      ch = ((mergedTours tours persons_merged).map (·.tour_id)).zip vals ∧
      prev' = updatePrev prev
        (((mergedTours tours persons_merged).map (·.person_id)).zip vals) ∧
      tt'.assigned = tt.assigned
        ++ ((mergedTours tours persons_merged).map (·.person_id)).zip vals ∧
      tt'.avail = tt.avail ∧
      prev'.map Prod.fst = prev.map Prod.fst ∧
      (∀ q, q ∉ (mergedTours tours persons_merged).map (·.person_id) →
        alookup prev' q = alookup prev q) ∧
      (∀ i (hi : i < (mergedTours tours persons_merged).length),
        ((mergedTours tours persons_merged).get ⟨i, hi⟩).person_id
            ∈ prev.map Prod.fst →
        alookup prev' (((mergedTours tours persons_merged).get ⟨i, hi⟩).person_id)
          = vals[i]?) := by
  obtain ⟨hnodup, prevRows, alt_tdd, vals, h1, h2, hvals, hlen, hch, hprev, htt⟩ :=
    schedule_tours_inv h
  have hkslen : ((mergedTours tours persons_merged).map (·.person_id)).length
      = (mergedTours tours persons_merged).length := List.length_map _ _
  refine ⟨vals, hlen, hch, hprev, ?_, ?_, ?_, ?_, ?_⟩
  · rw [htt]
    rfl
  · rw [htt]
    rfl
  · rw [hprev]
    exact updatePrev_keys _ _
  · intro q hq
    rw [hprev, alookup_updatePrev]
    have hnone : alookup
        (((mergedTours tours persons_merged).map (·.person_id)).zip vals) q = none := by
      apply alookup_eq_none
      rw [List.map_fst_zip _ _ (by omega)]
      exact hq
    rw [hnone]
    cases alookup prev q <;> rfl
  · intro i hi hmem
    have hndm : ((mergedTours tours persons_merged).map (·.person_id)).Nodup :=
      hnodup.sublist ((List.filter_sublist _).map _)
    have hki : i < ((mergedTours tours persons_merged).map (·.person_id)).length := by
      omega
    have hz := alookup_zip_get vals hndm i hki (by omega)
    have hgetm : ((mergedTours tours persons_merged).map (·.person_id))[i]
        = ((mergedTours tours persons_merged).get ⟨i, hi⟩).person_id := by
      simp
    rw [hgetm] at hz
    rw [hprev, alookup_updatePrev]
    obtain ⟨w, hw⟩ := alookup_isSome_of_mem hmem
    rw [hw, hz]
    have hvi : i < vals.length := by omega
    rw [List.getElem?_eq_getElem hvi]
    rfl

/-- Witness for C6 at a concrete one-tour pass. -/
theorem C6_commit_effects_witness :
    ∃ vals : List Nat,
      ([((1 : Nat), (0 : Nat))])
        = ((mergedTours [⟨1, 7, 1, 0⟩] [7]).map (·.tour_id)).zip vals := by
  obtain ⟨vals, _, hch, _⟩ := C6_commit_effects
    (fun ets _ _ => ets.map fun _ => 0 : List ETour → List TddRow → Unit → List Nat)
    [⟨1, 7, 1, 0⟩] [7] [⟨0, 4, 4⟩] () ⟨fun _ _ => true, []⟩ [(7, 0)]
    [(1, 0)] [(7, 0)] ⟨fun _ _ => true, [(7, 0)]⟩ rfl
  exact ⟨vals, hch⟩

/-! ### Claim C9 -/

lemma expandChoices_inv {alts : List Alt} {choices : List (Nat × Nat)}
    {out : List TddRow} (h : expandChoices alts choices = some out) :
    out.map (·.tour_id) = choices.map Prod.fst ∧
    ∀ i (hi : i < choices.length), ∃ a,
      alts.get? (choices.get ⟨i, hi⟩).2 = some a ∧
      out.get? i = some ⟨(choices.get ⟨i, hi⟩).1, a.start, a.end_, a.duration,
        (choices.get ⟨i, hi⟩).2⟩ := by
  induction choices generalizing out with
  | nil =>
    simp only [expandChoices, Option.some.injEq] at h
    subst h
    exact ⟨rfl, fun i hi => absurd hi (by simp)⟩
  | cons c rest ih =>
    simp only [expandChoices] at h
    rcases h1 : alts.get? c.2 with _ | a
    · simp only [h1] at h
      exact Option.noConfusion h
    simp only [h1] at h
    rcases h2 : expandChoices alts rest with _ | rows
    · simp only [h2] at h
      exact Option.noConfusion h
    simp only [h2, Option.some.injEq] at h
    subst h
    obtain ⟨hids, hpt⟩ := ih h2
    refine ⟨by simp [hids], fun i hi => ?_⟩
    match i with
    | 0 => exact ⟨a, h1, rfl⟩
    | i + 1 => exact hpt i (Nat.lt_of_succ_lt_succ hi)

/-- Claim C9: the final output of `vectorize_tour_scheduling` is the verbatim
expansion of the concatenated choices Series: each output row is indexed by
the tour identity, carries the chosen alternative index in the `tdd` column,
and its start / end / duration are exactly the alternatives-table row at that
chosen index — a pure lookup with no transformation. -/
theorem C9_verbatim_expansion {σ : Type}
    (simulate : List ETour → List TddRow → σ → List Nat)
    (tours : List Tour) (persons_merged : List Nat) (alts : List Alt)
    (spec : SpecArg σ) (tt : TimeTable) (out : List TddRow)
    (h : vectorize_tour_scheduling simulate tours persons_merged alts spec tt
      = some out) :
    ∃ choices,
      scheduling_choices simulate tours persons_merged alts spec tt = some choices ∧
      expandChoices alts choices = some out ∧
      out.map (·.tour_id) = choices.map Prod.fst ∧
      ∀ i (hi : i < choices.length), ∃ a,
        alts.get? (choices.get ⟨i, hi⟩).2 = some a ∧
        out.get? i = some ⟨(choices.get ⟨i, hi⟩).1, a.start, a.end_, a.duration,
          (choices.get ⟨i, hi⟩).2⟩ := by
  unfold vectorize_tour_scheduling at h
  rcases hc : scheduling_choices simulate tours persons_merged alts spec tt
      with _ | choices
  · simp only [hc] at h
    exact Option.noConfusion h
  simp only [hc] at h
  obtain ⟨hids, hpt⟩ := expandChoices_inv h
  exact ⟨choices, by first | exact hc | rfl, h, hids, hpt⟩

/-- Witness for C9 at a concrete one-tour run. -/
theorem C9_verbatim_expansion_witness :
    ∃ choices, scheduling_choices
      (fun ets _ _ => ets.map fun _ => 0 : List ETour → List TddRow → Unit → List Nat)
      [⟨1, 7, 1, 0⟩] [7] [⟨0, 4, 4⟩] (SpecArg.single ()) ⟨fun _ _ => true, []⟩
      = some choices := by
  obtain ⟨choices, hc, _⟩ := C9_verbatim_expansion
    (fun ets _ _ => ets.map fun _ => 0 : List ETour → List TddRow → Unit → List Nat)
    [⟨1, 7, 1, 0⟩] [7] [⟨0, 4, 4⟩] (SpecArg.single ()) ⟨fun _ _ => true, []⟩
    [⟨1, 0, 4, 4, 0⟩] rfl
  exact ⟨choices, hc⟩

/-! ### Claim C10 -/

lemma schedule_tours_empty {σ : Type}
    (simulate : List ETour → List TddRow → σ → List Nat)
    (persons_merged : List Nat) (alts : List Alt) (s : σ)
    (tt : TimeTable) (prev : List (Nat × Nat)) :
    schedule_tours simulate [] persons_merged alts s tt prev = none :=
  rfl

lemma mem_groupKeys {k : Nat} {tours : List Tour} :
    k ∈ groupKeys tours ↔ k ∈ tours.map (·.tour_num) := by
  unfold groupKeys
  rw [List.Perm.mem_iff (List.perm_insertionSort _ _)]
  exact List.mem_dedup

lemma runDict_none_of_mem {σ : Type}
    {simulate : List ETour → List TddRow → σ → List Nat}
    {persons_merged : List Nat} {alts : List Alt}
    {specs : List (Nat × σ)} {nth : List Tour} (ty : Nat) (s : σ)
    (hmem : (ty, s) ∈ specs)
    (hempty : nth.filter (fun t => t.tour_type = ty) = []) :
    ∀ st, runDict simulate persons_merged alts specs nth st = none := by
  induction specs with
  | nil => cases hmem
  | cons ts rest ih =>
    intro st
    rcases List.mem_cons.mp hmem with heq | hmem'
    · subst heq
      simp only [runDict, hempty, schedule_tours_empty]
    · unfold runDict
      rcases hs : schedule_tours simulate (nth.filter fun t => t.tour_type = ts.1)
          persons_merged alts ts.2 st.2 st.1 with _ | res
      · simp [hs]
      · rcases res with ⟨ch, prev2, tt2⟩
        simp [hs, ih hmem' (prev2, tt2)]

lemma runGroups_none_of_mem {σ : Type}
    {simulate : List ETour → List TddRow → σ → List Nat}
    {tours : List Tour} {persons_merged : List Nat} {alts : List Alt}
    {spec : SpecArg σ} {keys : List Nat} (k : Nat)
    (hk : k ∈ keys)
    (hnone : ∀ st, runGroup simulate persons_merged alts spec (nthTours tours k) st
      = none) :
    ∀ st, runGroups simulate tours persons_merged alts spec keys st = none := by
  induction keys with
  | nil => cases hk
  | cons k' ks ih =>
    intro st
    rcases List.mem_cons.mp hk with rfl | hk'
    · simp [runGroups, hnone st]
    · unfold runGroups
      rcases hg : runGroup simulate persons_merged alts spec (nthTours tours k') st
          with _ | res
      · simp [hg]
      · rcases res with ⟨ch, st'⟩
        simp [hg, ih hk' st']

/-- Claim C10: with a dict spec, every sequence-number group runs one pass per
dict key on the group filtered to that tour type (the shape of `runDict`); if
some sequence-number group that actually occurs in the input has no tour of
one of the dict's tour types, that pass runs on the empty sub-batch, the
availability assertion in the interaction-dataset builder fails on the empty
mask, and the whole run aborts. -/
theorem C10_dict_empty_subbatch_aborts {σ : Type}
    (simulate : List ETour → List TddRow → σ → List Nat)
    (tours : List Tour) (persons_merged : List Nat) (alts : List Alt)
    (specs : List (Nat × σ)) (tt : TimeTable) (k ty : Nat) (s : σ)
    (hk : k ∈ tours.map (·.tour_num))
    (hty : (ty, s) ∈ specs)
    (hempty : ∀ t ∈ tours, t.tour_num = k → t.tour_type ≠ ty) :
    vectorize_tour_scheduling simulate tours persons_merged alts
      (SpecArg.dict specs) tt = none := by
  have hfil : (nthTours tours k).filter (fun t => t.tour_type = ty) = [] := by
    apply List.filter_eq_nil_iff.mpr
    intro t ht
    obtain ⟨htm, htk⟩ := List.mem_filter.mp ht
    simpa using hempty t htm (by simpa using htk)
  have hgroup : ∀ st,
      runGroup simulate persons_merged alts (SpecArg.dict specs)
        (nthTours tours k) st = none := by
    intro st
    exact runDict_none_of_mem ty s hty hfil st
  have hgroups : ∀ st, runGroups simulate tours persons_merged alts
      (SpecArg.dict specs) (groupKeys tours) st = none :=
    runGroups_none_of_mem k (mem_groupKeys.mpr hk) hgroup
  have hsc : scheduling_choices simulate tours persons_merged alts
      (SpecArg.dict specs) tt = none := by
    unfold scheduling_choices
    have hne : ¬ tours.length = 0 := by
      cases tours
      · cases hk
      · simp
    rw [if_neg hne]
    by_cases halts : alts.isEmpty
    · rw [if_pos halts]
    · rw [if_neg halts, hgroups _]
  unfold vectorize_tour_scheduling
  rw [hsc]

/-- Witness for C10: dict key 5 has no tours in the only group, so the run
aborts even though the key-0 pass would succeed. -/
theorem C10_dict_empty_subbatch_aborts_witness :
    vectorize_tour_scheduling
      (fun ets _ _ => ets.map fun _ => 0 : List ETour → List TddRow → Unit → List Nat)
      [⟨1, 1, 1, 0⟩] [1] [⟨0, 4, 4⟩] (SpecArg.dict [(0, ()), (5, ())])
      ⟨fun _ _ => true, []⟩ = none :=
  C10_dict_empty_subbatch_aborts _ _ _ _ _ _ 1 5 ()
    (by decide) (by decide) (by decide)

/-! ### Orchestrator bookkeeping lemmas (for C2 and C4) -/

lemma flatMap_congr_mem {α β : Type} {l : List α} {f g : α → List β}
    (h : ∀ a ∈ l, f a = g a) : l.flatMap f = l.flatMap g := by
  induction l with
  | nil => rfl
  | cons a l ih =>
    simp only [List.flatMap_cons, h a (by simp), ih fun a ha => h a (by simp [ha])]

lemma bind_filter_perm (keys : List Nat) (l : List Tour) (f : Tour → Nat)
    (hnd : keys.Nodup) (hcov : ∀ t ∈ l, f t ∈ keys) :
    (keys.flatMap fun k => l.filter fun t => f t = k).Perm l := by
  induction keys generalizing l with
  | nil =>
    have hl : l = [] := List.eq_nil_iff_forall_not_mem.mpr
      fun t ht => absurd (hcov t ht) (List.not_mem_nil _)
    subst hl
    simp
  | cons k ks ih =>
    simp only [List.flatMap_cons]
    have hstep : ∀ k' ∈ ks, (l.filter fun t => f t = k')
        = ((l.filter fun t => !decide (f t = k)).filter fun t => f t = k') := by
      intro k' hk'
      rw [List.filter_filter]
      apply List.filter_congr
      intro t _
      by_cases hfk : f t = k'
      · have hkof : ¬ k' = k := fun he => (List.nodup_cons.mp hnd).1 (he ▸ hk')
        simp [hfk, hkof]
      · simp [hfk]
    have hrw : (ks.flatMap fun k' => l.filter fun t => f t = k')
        = ks.flatMap fun k' =>
            ((l.filter fun t => !decide (f t = k)).filter fun t => f t = k') :=
      flatMap_congr_mem hstep
    rw [hrw]
    have ihh := ih (l.filter fun t => !decide (f t = k)) (List.nodup_cons.mp hnd).2
      (fun t ht => by
        obtain ⟨htl, htk⟩ := List.mem_filter.mp ht
        rcases List.mem_cons.mp (hcov t htl) with h | h
        · exact absurd (decide_eq_true h) (by simpa using htk)
        · exact h)
    exact List.Perm.trans (List.Perm.append_left _ ihh)
      (List.filter_append_perm _ l)

lemma merged_eq_of_covered {tours : List Tour} {persons_merged : List Nat}
    (h : ∀ t ∈ tours, t.person_id ∈ persons_merged) :
    mergedTours tours persons_merged = tours := by
  apply List.filter_eq_self.mpr
  intro t ht
  simp only [List.any_eq_true]
  exact ⟨t.person_id, h t ht, by simp⟩

lemma schedule_tours_ids {σ : Type}
    {simulate : List ETour → List TddRow → σ → List Nat}
    {tours : List Tour} {persons_merged : List Nat} {alts : List Alt} {s : σ}
    {tt : TimeTable} {prev ch prev' : List (Nat × Nat)} {tt' : TimeTable}
    (h : schedule_tours simulate tours persons_merged alts s tt prev
      = some (ch, prev', tt'))
    (hcov : ∀ t ∈ tours, t.person_id ∈ persons_merged) :
    ch.map Prod.fst = tours.map (·.tour_id) := by
  obtain ⟨_, _, _, vals, _, _, _, hlen, hch, _, _⟩ := schedule_tours_inv h
  have hm := merged_eq_of_covered hcov
  rw [hm] at hlen
  have hlen' : (tours.map (·.tour_id)).length ≤ vals.length := by
    simp [hlen]
  rw [hch, hm, List.map_fst_zip _ _ hlen']

lemma specOk_sub {σ : Type} {spec : SpecArg σ} {l l' : List Tour}
    (hsub : ∀ t ∈ l', t ∈ l) (h : specOk spec l) : specOk spec l' := by
  cases spec with
  | single s => trivial
  | dict specs =>
    obtain ⟨hnd, hcov⟩ := h
    exact ⟨hnd, fun t ht => hcov t (hsub t ht)⟩

lemma runDict_ids {σ : Type}
    {simulate : List ETour → List TddRow → σ → List Nat}
    {persons_merged : List Nat} {alts : List Alt}
    {specs : List (Nat × σ)} {nth : List Tour}
    {st : List (Nat × Nat) × TimeTable} {ch : List (Nat × Nat)}
    {st' : List (Nat × Nat) × TimeTable}
    (h : runDict simulate persons_merged alts specs nth st = some (ch, st'))
    (hcov : ∀ t ∈ nth, t.person_id ∈ persons_merged) :
    ch.map Prod.fst = specs.flatMap fun ts =>
      (nth.filter fun t => t.tour_type = ts.1).map (·.tour_id) := by
  induction specs generalizing st ch st' with
  | nil =>
    simp only [runDict, Option.some.injEq] at h
    injection h with h1 h2
    subst h1
    rfl
  | cons ts rest ih =>
    unfold runDict at h
    rcases hs : schedule_tours simulate (nth.filter fun t => t.tour_type = ts.1)
        persons_merged alts ts.2 st.2 st.1 with _ | res
    · simp only [hs] at h
      exact Option.noConfusion h
    rcases res with ⟨ch0, prev2, tt2⟩
    simp only [hs] at h
    rcases hr : runDict simulate persons_merged alts rest nth (prev2, tt2)
        with _ | res2
    · simp only [hr] at h
      exact Option.noConfusion h
    rcases res2 with ⟨chRest, stF⟩
    simp only [hr] at h
    injection h with h'
    injection h' with h1 h2
    subst h1
    simp only [List.flatMap_cons, List.map_append]
    rw [schedule_tours_ids hs fun t ht => hcov t (List.mem_filter.mp ht).1, ih hr]

lemma groupKeys_nodup (tours : List Tour) : (groupKeys tours).Nodup :=
  (List.perm_insertionSort _ _).nodup_iff.mpr (List.nodup_dedup _)

lemma runGroup_perm {σ : Type}
    {simulate : List ETour → List TddRow → σ → List Nat}
    {persons_merged : List Nat} {alts : List Alt} {spec : SpecArg σ}
    {nth : List Tour} {st : List (Nat × Nat) × TimeTable}
    {ch : List (Nat × Nat)} {st' : List (Nat × Nat) × TimeTable}
    (h : runGroup simulate persons_merged alts spec nth st = some (ch, st'))
    (hcov : ∀ t ∈ nth, t.person_id ∈ persons_merged)
    (hspec : specOk spec nth) :
    (ch.map Prod.fst).Perm (nth.map (·.tour_id)) := by
  cases spec with
  | single s =>
    unfold runGroup at h
    rcases hs : schedule_tours simulate nth persons_merged alts s st.2 st.1
        with _ | res
    · simp only [hs] at h
      exact Option.noConfusion h
    rcases res with ⟨ch0, prev2, tt2⟩
    simp only [hs] at h
    injection h with h'
    injection h' with h1 h2
    subst h1
    rw [schedule_tours_ids hs hcov]
  | dict specs =>
    obtain ⟨hnd, hc⟩ := hspec
    have hids := runDict_ids h hcov
    rw [hids]
    have hperm : ((specs.map Prod.fst).flatMap fun ty =>
        nth.filter fun t => t.tour_type = ty).Perm nth :=
      bind_filter_perm _ _ _ hnd hc
    rw [List.flatMap_map] at hperm
    have := hperm.map (·.tour_id)
    simpa [List.map_flatMap] using this

lemma runGroups_perm {σ : Type}
    {simulate : List ETour → List TddRow → σ → List Nat}
    {tours : List Tour} {persons_merged : List Nat} {alts : List Alt}
    {spec : SpecArg σ} {keys : List Nat}
    {st : List (Nat × Nat) × TimeTable} {ch : List (Nat × Nat)}
    {st' : List (Nat × Nat) × TimeTable}
    (h : runGroups simulate tours persons_merged alts spec keys st = some (ch, st'))
    (hcov : ∀ t ∈ tours, t.person_id ∈ persons_merged)
    (hspec : specOk spec tours) :
    (ch.map Prod.fst).Perm
      ((keys.flatMap fun k => nthTours tours k).map (·.tour_id)) := by
  induction keys generalizing st ch st' with
  | nil =>
    simp only [runGroups, Option.some.injEq] at h
    injection h with h1 h2
    subst h1
    rfl
  | cons k ks ih =>
    unfold runGroups at h
    rcases hg : runGroup simulate persons_merged alts spec (nthTours tours k) st
        with _ | res
    · simp only [hg] at h
      exact Option.noConfusion h
    rcases res with ⟨ch0, st1⟩
    simp only [hg] at h
    rcases hr : runGroups simulate tours persons_merged alts spec ks st1
        with _ | res2
    · simp only [hr] at h
      exact Option.noConfusion h
    rcases res2 with ⟨chRest, stF⟩
    simp only [hr] at h
    injection h with h'
    injection h' with h1 h2
    subst h1
    have hnthsub : ∀ t ∈ nthTours tours k, t ∈ tours :=
      fun t ht => (List.mem_filter.mp ht).1
    have hg' := runGroup_perm hg (fun t ht => hcov t (hnthsub t ht))
      (specOk_sub hnthsub hspec)
    have hr' := ih hr
    simp only [List.flatMap_cons, List.map_append]
    exact hg'.append hr'

lemma flatMap_nthTours_perm (tours : List Tour) :
    ((groupKeys tours).flatMap fun k => nthTours tours k).Perm tours := by
  show ((groupKeys tours).flatMap fun k =>
    tours.filter fun t => t.tour_num = k).Perm tours
  exact bind_filter_perm _ _ _ (groupKeys_nodup tours)
    fun t ht => mem_groupKeys.mpr (List.mem_map_of_mem _ ht)

/-- Inversion of a successful `scheduling_choices` call: the input tours were
non-empty, the alternatives table was non-empty, and the group loop over the
ascending group keys succeeded from the initial previous-tour Series. -/
lemma scheduling_choices_inv {σ : Type}
    {simulate : List ETour → List TddRow → σ → List Nat}
    {tours : List Tour} {persons_merged : List Nat} {alts : List Alt}
    {spec : SpecArg σ} {tt : TimeTable} {choices : List (Nat × Nat)}
    (h : scheduling_choices simulate tours persons_merged alts spec tt
      = some choices) :
    tours.length ≠ 0 ∧ alts ≠ [] ∧
    ∃ stF, runGroups simulate tours persons_merged alts spec (groupKeys tours)
      (initialPrev tours, tt) = some (choices, stF) := by
  unfold scheduling_choices at h
  split at h
  case isTrue => exact Option.noConfusion h
  case isFalse hne =>
    split at h
    case isTrue => exact Option.noConfusion h
    case isFalse halts =>
      rcases hg : runGroups simulate tours persons_merged alts spec
          (groupKeys tours) (initialPrev tours, tt) with _ | res
      · simp only [hg] at h
        exact Option.noConfusion h
      rcases res with ⟨ch, stF⟩
      simp only [hg, Option.some.injEq] at h
      subst h
      refine ⟨hne, ?_, stF, by first | exact hg | rfl⟩
      intro hnil
      subst hnil
      exact halts rfl

/-- Inversion of a successful `vectorize_tour_scheduling` call into the
orchestration prefix and the final verbatim expansion. -/
lemma vectorize_inv {σ : Type}
    {simulate : List ETour → List TddRow → σ → List Nat}
    {tours : List Tour} {persons_merged : List Nat} {alts : List Alt}
    {spec : SpecArg σ} {tt : TimeTable} {out : List TddRow}
    (h : vectorize_tour_scheduling simulate tours persons_merged alts spec tt
      = some out) :
    ∃ choices,
      scheduling_choices simulate tours persons_merged alts spec tt
        = some choices ∧
      expandChoices alts choices = some out := by
  unfold vectorize_tour_scheduling at h
  rcases hc : scheduling_choices simulate tours persons_merged alts spec tt
      with _ | choices
  · simp only [hc] at h
    exact Option.noConfusion h
  simp only [hc] at h
  exact ⟨choices, by first | exact hc | rfl, h⟩

/-! ### Claim C2 -/

/-- Claim C2 is false as stated: with a dict spec keyed only by tour type 0
and a valid input (non-empty, tour_num and tour_type present) containing a
type-1 tour in a group that also has a type-0 tour, the run returns — no pass
is invoked for type 1 — and the output index is [1] while the input tour
identities are [1, 2]: the type-1 tour is silently dropped. -/
theorem C2_counterexample :
    vectorize_tour_scheduling
      (fun ets _ _ => ets.map fun _ => 0 :
        List ETour → List TddRow → Unit → List Nat)
      [⟨1, 1, 1, 0⟩, ⟨2, 2, 1, 1⟩] [1, 2] [⟨0, 4, 4⟩] (SpecArg.dict [(0, ())])
      ⟨fun _ _ => true, []⟩ = some [⟨1, 0, 4, 4, 0⟩] ∧
    ([⟨1, 1, 1, 0⟩, ⟨2, 2, 1, 1⟩] : List Tour).map Tour.tour_id = [1, 2] := by
  decide

/-- Claim C2 (amended): for every successful run in which every tour's person
appears in the person table and — when the spec is a dict — the dict's keys
are distinct and cover every occurring tour type, the tour identities of the
output table are a permutation of the input tour identities (so with unique
input identities, the output index set equals the input identity set, each
exactly once). -/
theorem C2_completeness_amended {σ : Type}
    (simulate : List ETour → List TddRow → σ → List Nat)
    (tours : List Tour) (persons_merged : List Nat) (alts : List Alt)
    (spec : SpecArg σ) (tt : TimeTable) (out : List TddRow)
    (hcov : ∀ t ∈ tours, t.person_id ∈ persons_merged)
    (hspec : specOk spec tours)
    (h : vectorize_tour_scheduling simulate tours persons_merged alts spec tt
      = some out) :
    (out.map (·.tour_id)).Perm (tours.map (·.tour_id)) := by
  obtain ⟨choices, hch, hexp⟩ := vectorize_inv h
  obtain ⟨_, _, stF, hrg⟩ := scheduling_choices_inv hch
  have hids : out.map (·.tour_id) = choices.map Prod.fst :=
    (expandChoices_inv hexp).1
  rw [hids]
  exact (runGroups_perm hrg hcov hspec).trans ((flatMap_nthTours_perm tours).map _)

/-- Witness for C2 (amended) at a concrete one-tour run. -/
theorem C2_completeness_amended_witness :
    (([⟨1, 0, 4, 4, 0⟩] : List TddRow).map (·.tour_id)).Perm
      (([⟨1, 7, 1, 0⟩] : List Tour).map (·.tour_id)) :=
  C2_completeness_amended
    (fun ets _ _ => ets.map fun _ => 0 :
      List ETour → List TddRow → Unit → List Nat)
    [⟨1, 7, 1, 0⟩] [7] [⟨0, 4, 4⟩] (SpecArg.single ()) ⟨fun _ _ => true, []⟩
    [⟨1, 0, 4, 4, 0⟩] (by decide) trivial rfl

/-! ### Claim C4 -/

lemma groupKeys_pairwise_lt (tours : List Tour) :
    List.Pairwise (· < ·) (groupKeys tours) :=
  (List.sorted_insertionSort _ _).lt_of_le (groupKeys_nodup tours)

lemma runGroups_cons_inv {σ : Type}
    {simulate : List ETour → List TddRow → σ → List Nat}
    {tours : List Tour} {persons_merged : List Nat} {alts : List Alt}
    {spec : SpecArg σ} {k : Nat} {ks : List Nat}
    {st : List (Nat × Nat) × TimeTable} {ch : List (Nat × Nat)}
    {st' : List (Nat × Nat) × TimeTable}
    (h : runGroups simulate tours persons_merged alts spec (k :: ks) st
      = some (ch, st')) :
    ∃ ch0 st1 chR,
      runGroup simulate persons_merged alts spec (nthTours tours k) st
        = some (ch0, st1) ∧
      runGroups simulate tours persons_merged alts spec ks st1
        = some (chR, st') ∧
      ch = ch0 ++ chR := by
  unfold runGroups at h
  rcases hg : runGroup simulate persons_merged alts spec (nthTours tours k) st
      with _ | res
  · simp only [hg] at h
    exact Option.noConfusion h
  rcases res with ⟨ch0, st1⟩
  simp only [hg] at h
  rcases hr : runGroups simulate tours persons_merged alts spec ks st1
      with _ | res2
  · simp only [hr] at h
    exact Option.noConfusion h
  rcases res2 with ⟨chRest, stF⟩
  simp only [hr] at h
  injection h with h'
  injection h' with h1 h2
  subst h1
  subst h2
  exact ⟨ch0, st1, chRest, by first | exact hg | rfl,
    by exact hr, rfl⟩

lemma runGroup_single_inv {σ : Type}
    {simulate : List ETour → List TddRow → σ → List Nat}
    {persons_merged : List Nat} {alts : List Alt} {s : σ}
    {nth : List Tour} {st : List (Nat × Nat) × TimeTable}
    {ch : List (Nat × Nat)} {st' : List (Nat × Nat) × TimeTable}
    (h : runGroup simulate persons_merged alts (SpecArg.single s) nth st
      = some (ch, st')) :
    ∃ prev2 tt2,
      schedule_tours simulate nth persons_merged alts s st.2 st.1
        = some (ch, prev2, tt2) ∧ st' = (prev2, tt2) := by
  unfold runGroup at h
  rcases hs : schedule_tours simulate nth persons_merged alts s st.2 st.1
      with _ | res
  · simp only [hs] at h
    exact Option.noConfusion h
  rcases res with ⟨ch0, prev2, tt2⟩
  simp only [hs] at h
  injection h with h'
  injection h' with h1 h2
  subst h1
  exact ⟨prev2, tt2, by first | exact hs | rfl, h2.symm⟩

/-- Claim C4: sequence-number groups are processed in strictly ascending
tour_num order (the group-key list is pairwise increasing), and in a run over
groups [1, 2] the previous-tour features computed for a person's sequence-2
tour by the group-2 pass — the `get_previous_tour_by_tourid` join it performs
on the state left by group 1 — equal the start and end of the alternative
actually chosen for that person's sequence-1 tour and committed to the
previous-tour Series. -/
theorem C4_sequential_dependency {σ : Type}
    (simulate : List ETour → List TddRow → σ → List Nat)
    (tours : List Tour) (persons_merged : List Nat) (alts : List Alt) (s : σ)
    (tt0 : TimeTable) (out : List TddRow) (p : Nat) (t1 t2 : Tour)
    (hkeys : groupKeys tours = [1, 2])
    (htid : (tours.map (·.tour_id)).Nodup)
    (ht1 : t1 ∈ tours) (ht1p : t1.person_id = p) (ht1n : t1.tour_num = 1)
    (ht2 : t2 ∈ tours) (ht2p : t2.person_id = p) (ht2n : t2.tour_num = 2)
    (hp : p ∈ persons_merged)
    (hrun : vectorize_tour_scheduling simulate tours persons_merged alts
      (SpecArg.single s) tt0 = some out) :
    List.Pairwise (· < ·) (groupKeys tours) ∧
    ∃ ch1 s1 tt1 c1,
      schedule_tours simulate (nthTours tours 1) persons_merged alts s tt0
        (initialPrev tours) = some (ch1, s1, tt1) ∧
      alookup ch1 t1.tour_id = some c1 ∧
      alookup s1 p = some c1 ∧
      ∃ rows j a,
        get_previous_tour_by_tourid
          ((mergedTours (nthTours tours 2) persons_merged).map
            fun t => (t.tour_id, t.person_id)) s1 alts = some rows ∧
        (mergedTours (nthTours tours 2) persons_merged).get? j = some t2 ∧
        alts.get? c1 = some a ∧
        rows.get? j = some ⟨t2.tour_id, a.start, a.end_⟩ := by
  refine ⟨groupKeys_pairwise_lt tours, ?_⟩
  obtain ⟨choices, hch, _⟩ := vectorize_inv hrun
  obtain ⟨_, _, stF, hrg⟩ := scheduling_choices_inv hch
  rw [hkeys] at hrg
  obtain ⟨ch1, st1, chR, hg1, hrest, _⟩ := runGroups_cons_inv hrg
  obtain ⟨prev2, tt2, hs1, hst1⟩ := runGroup_single_inv hg1
  subst hst1
  obtain ⟨ch2, st2, chR2, hg2, _, _⟩ := runGroups_cons_inv hrest
  obtain ⟨prev3, tt3, hs2, _⟩ := runGroup_single_inv hg2
  obtain ⟨hnodup1, prevRows1, alt_tdd1, vals1, _, _, _, hlen1, hch1, hprev1, _⟩ :=
    schedule_tours_inv hs1
  have ht1nth : t1 ∈ nthTours tours 1 :=
    List.mem_filter.mpr ⟨ht1, by simp [ht1n]⟩
  have ht1m : t1 ∈ mergedTours (nthTours tours 1) persons_merged := by
    refine List.mem_filter.mpr ⟨ht1nth, ?_⟩
    simp only [List.any_eq_true, decide_eq_true_eq]
    exact ⟨p, hp, ht1p.symm⟩
  obtain ⟨⟨i, hi⟩, hgi⟩ := List.mem_iff_get.mp ht1m
  have hM1t : List.Sublist (mergedTours (nthTours tours 1) persons_merged) tours :=
    (List.filter_sublist _).trans (List.filter_sublist _)
  have hi' : i < ((mergedTours (nthTours tours 1) persons_merged).map
      (·.tour_id)).length := by
    simpa using hi
  have hidnd : ((mergedTours (nthTours tours 1) persons_merged).map
      (·.tour_id)).Nodup := htid.sublist (hM1t.map _)
  have hvi : i < vals1.length := by
    rw [hlen1]
    exact hi
  have hgetid : ((mergedTours (nthTours tours 1) persons_merged).map
      (·.tour_id))[i] = t1.tour_id := by
    simp only [List.getElem_map]
    rw [show (mergedTours (nthTours tours 1) persons_merged)[i] = t1 from hgi]
  have hz1 := alookup_zip_get vals1 hidnd i hi' (by simpa using hlen1)
  have hc1 : alookup ch1 t1.tour_id = some vals1[i] := by
    rw [hch1, ← hgetid, hz1]
    exact List.getElem?_eq_getElem hvi
  have hip : i < ((mergedTours (nthTours tours 1) persons_merged).map
      (·.person_id)).length := by
    simpa using hi
  have hpm : ((mergedTours (nthTours tours 1) persons_merged).map
      (·.person_id))[i] = p := by
    simp only [List.getElem_map]
    rw [show (mergedTours (nthTours tours 1) persons_merged)[i] = t1 from hgi, ht1p]
  have hpnd : ((mergedTours (nthTours tours 1) persons_merged).map
      (·.person_id)).Nodup :=
    hnodup1.sublist ((List.filter_sublist _).map _)
  have hz2 := alookup_zip_get vals1 hpnd i (by simpa using hi) (by simpa using hlen1)
  have hlook1 : alookup (((mergedTours (nthTours tours 1) persons_merged).map
      (·.person_id)).zip vals1) p = some vals1[i] := by
    rw [← hpm, hz2]
    exact List.getElem?_eq_getElem hvi
  have hpmem : p ∈ tours.map (·.person_id) := by
    rw [← ht1p]
    exact List.mem_map_of_mem _ ht1
  have hinit : alookup (initialPrev tours) p = some 0 := by
    simpa [initialPrev] using alookup_map_zero (List.mem_dedup.mpr hpmem)
  have hs1p : alookup prev2 p = some vals1[i] := by
    rw [hprev1, alookup_updatePrev, hinit, hlook1]
    rfl
  obtain ⟨hnodup2, prevRows2, alt_tdd2, vals2, hpj, _, _, _, _, _, _⟩ :=
    schedule_tours_inv hs2
  have ht2nth : t2 ∈ nthTours tours 2 :=
    List.mem_filter.mpr ⟨ht2, by simp [ht2n]⟩
  have ht2m : t2 ∈ mergedTours (nthTours tours 2) persons_merged := by
    refine List.mem_filter.mpr ⟨ht2nth, ?_⟩
    simp only [List.any_eq_true, decide_eq_true_eq]
    exact ⟨p, hp, ht2p.symm⟩
  obtain ⟨⟨j, hj⟩, hgj⟩ := List.mem_iff_get.mp ht2m
  obtain ⟨hlenr, hpt⟩ := get_previous_eq_some hpj
  have hjc : j < ((mergedTours (nthTours tours 2) persons_merged).map
      fun t => (t.tour_id, t.person_id)).length := by
    simpa using hj
  obtain ⟨altIdx, a, hl1, hl2, hl3⟩ := hpt j hjc
  have hcur : (((mergedTours (nthTours tours 2) persons_merged).map
      fun t => (t.tour_id, t.person_id)).get ⟨j, hjc⟩) = (t2.tour_id, p) := by
    simp only [List.get_eq_getElem, List.getElem_map]
    rw [show (mergedTours (nthTours tours 2) persons_merged)[j] = t2 from hgj, ht2p]
  rw [hcur] at hl1 hl3
  have haix : altIdx = vals1[i] := by
    have h1 := hl1
    rw [hs1p] at h1
    exact (Option.some.injEq _ _ ▸ h1).symm
  subst haix
  refine ⟨ch1, prev2, tt2, vals1[i], hs1, hc1, hs1p, prevRows2, j, a, hpj, ?_, hl2, ?_⟩
  · rw [List.get?_eq_get hj, hgj]
  · exact hl3

/-- Witness for C4 at a concrete two-tour run (person 7, sequence numbers 1
and 2, evaluator always choosing alternative 1). -/
theorem C4_sequential_dependency_witness :
    List.Pairwise (· < ·) (groupKeys [⟨1, 7, 1, 0⟩, ⟨2, 7, 2, 0⟩]) :=
  (C4_sequential_dependency
    (fun ets _ _ => ets.map fun _ => 1 :
      List ETour → List TddRow → Unit → List Nat)
    [⟨1, 7, 1, 0⟩, ⟨2, 7, 2, 0⟩] [7] [⟨0, 4, 4⟩, ⟨4, 8, 4⟩] ()
    ⟨fun _ _ => true, []⟩ [⟨1, 4, 8, 4, 1⟩, ⟨2, 4, 8, 4, 1⟩] 7
    ⟨1, 7, 1, 0⟩ ⟨2, 7, 2, 0⟩ (by decide) (by decide) (by decide) rfl rfl
    (by decide) rfl rfl (by decide) rfl).1
